import Mathlib

/-!
Verification of the obsd vault note manager (src/index.ts) against its
natural-language specification.  Strings are embedded as lists of
characters; the JavaScript string functions used by the program
(toLowerCase, trim, the regex replacements, split, startsWith) are
translated operation by operation.
-/

namespace Obsd

/-- Strings of the program are embedded as lists of characters. -/
abbrev LC := List Char

/-! ## Character classes -/

/-- The character class of the regex `[a-z0-9]` used by slugify. -/
def isAlnumLC (c : Char) : Bool :=
  (97 ≤ c.toNat && c.toNat ≤ 122) || (48 ≤ c.toNat && c.toNat ≤ 57)

/-- The JavaScript whitespace class (`\s`, also used by `String.trim`). -/
def isJsWS (c : Char) : Bool :=
  c.toNat = 9 || c.toNat = 10 || c.toNat = 11 || c.toNat = 12 || c.toNat = 13 ||
  c.toNat = 32 || c.toNat = 160 || c.toNat = 5760 ||
  (8192 ≤ c.toNat && c.toNat ≤ 8202) ||
  c.toNat = 8232 || c.toNat = 8233 || c.toNat = 8239 || c.toNat = 8287 ||
  c.toNat = 12288 || c.toNat = 65279

/-- JavaScript `String.prototype.trim`: drop leading and trailing whitespace. -/
def jsTrim (l : LC) : LC :=
  ((l.dropWhile isJsWS).reverse.dropWhile isJsWS).reverse

/-! ## slugify (src/index.ts lines 46-52)

`input.toLowerCase().trim().replace(/[^a-z0-9]+/g, "-").replace(/^-+|-+$/g, "")`.

The global replacement of every maximal run of non-`[a-z0-9]` characters by a
single hyphen is implemented by a scanner carrying a flag that records whether
the scanner currently stands inside such a run (so that only the first
character of the run emits the hyphen). -/

def collapseGo : Bool → LC → LC
  | _, [] => []
  | inRun, c :: rest =>
    if isAlnumLC c then c :: collapseGo false rest
    else if inRun then collapseGo true rest
    else '-' :: collapseGo true rest

/-- The final `.replace(/^-+|-+$/g, "")`: remove the leading and the trailing
run of hyphens. -/
def stripHyphens (l : LC) : LC :=
  ((l.dropWhile (fun c => c == '-')).reverse.dropWhile (fun c => c == '-')).reverse

/-- slugify, as in src/index.ts lines 46-52. -/
def slugify (l : LC) : LC :=
  stripHyphens (collapseGo false (jsTrim (l.map Char.toLower)))

/-- Characters allowed in a slug: lowercase letters, digits, hyphen. -/
def goodChar (c : Char) : Bool := isAlnumLC c || c == '-'

/-- No two adjacent hyphens. -/
def noDoubleHyphen : LC → Bool
  | [] => true
  | [_] => true
  | a :: b :: rest => !(a == '-' && b == '-') && noDoubleHyphen (b :: rest)

/-! ## Properties of slugify (claim C8) -/

lemma alnum_ne_hyphen {c : Char} (h : isAlnumLC c = true) : c ≠ '-' := by
  intro he; subst he; exact absurd h (by decide)

lemma goodChar_hyphen : goodChar '-' = true := by decide

lemma collapseGo_all_good : ∀ (b : Bool) (l : LC), (collapseGo b l).all goodChar = true := by
  intro b l
  induction l generalizing b with
  | nil => simp [collapseGo]
  | cons c rest ih =>
    by_cases hc : isAlnumLC c = true
    · simp [collapseGo, hc, goodChar, ih]
    · cases b with
      | true => simpa [collapseGo, hc] using ih true
      | false => simp [collapseGo, hc, goodChar, ih]

lemma collapseGo_true_head : ∀ (l : LC) (h : Char),
    (collapseGo true l).head? = some h → isAlnumLC h = true := by
  intro l
  induction l with
  | nil => intro h hh; simp [collapseGo] at hh
  | cons c rest ih =>
    intro h hh
    by_cases hc : isAlnumLC c = true
    · simp [collapseGo, hc] at hh
      exact hh ▸ hc
    · simp [collapseGo, hc] at hh
      exact ih h hh

lemma noDoubleHyphen_cons_of (a : Char) (l : LC) (hl : noDoubleHyphen l = true)
    (h : (a == '-') = false ∨ ∀ b, l.head? = some b → (b == '-') = false) :
    noDoubleHyphen (a :: l) = true := by
  cases l with
  | nil => rfl
  | cons b r =>
    have hb : (a == '-' && b == '-') = false := by
      rcases h with h | h
      · simp [h]
      · simp [h b rfl]
    simp [noDoubleHyphen, hl, hb]

lemma collapseGo_noDH : ∀ (b : Bool) (l : LC), noDoubleHyphen (collapseGo b l) = true := by
  intro b l
  induction l generalizing b with
  | nil => simp [collapseGo, noDoubleHyphen]
  | cons c rest ih =>
    by_cases hc : isAlnumLC c = true
    · rw [show collapseGo b (c :: rest) = c :: collapseGo false rest by
        simp [collapseGo, hc]]
      exact noDoubleHyphen_cons_of c _ (ih false)
        (Or.inl (beq_eq_false_iff_ne.mpr (alnum_ne_hyphen hc)))
    · cases b with
      | true => simpa [collapseGo, hc] using ih true
      | false =>
        rw [show collapseGo false (c :: rest) = '-' :: collapseGo true rest by
          simp [collapseGo, hc]]
        exact noDoubleHyphen_cons_of '-' _ (ih true) (Or.inr (fun b hb => by
          by_cases hcb : b = '-'
          · subst hcb
            exact absurd (collapseGo_true_head rest _ hb) (by decide)
          · exact beq_eq_false_iff_ne.mpr hcb))

lemma dropWhile_head_false {p : Char → Bool} :
    ∀ {l : LC} {c : Char} {t : LC}, l.dropWhile p = c :: t → p c = false := by
  intro l
  induction l with
  | nil => intro c t h; simp [List.dropWhile] at h
  | cons a r ih =>
    intro c t h
    rw [List.dropWhile_cons] at h
    by_cases hp : p a = true
    · rw [if_pos hp] at h; exact ih h
    · rw [if_neg hp] at h
      cases h
      exact eq_false_of_ne_true hp

lemma dropWhile_eq_self_of_head {p : Char → Bool} {l : LC}
    (h : ∀ c t, l = c :: t → p c = false) : l.dropWhile p = l := by
  cases l with
  | nil => rfl
  | cons c t => rw [List.dropWhile_cons, if_neg (by simp [h c t rfl])]

/-- The relation behind noDoubleHyphen. -/
def HyphR (a b : Char) : Prop := ¬ (a = '-' ∧ b = '-')

lemma noDH_iff_chain : ∀ l : LC, noDoubleHyphen l = true ↔ List.Chain' HyphR l := by
  intro l
  induction l with
  | nil => simp [noDoubleHyphen, List.chain'_nil]
  | cons a r ih =>
    cases r with
    | nil => simp [noDoubleHyphen, List.chain'_singleton]
    | cons b r2 =>
      rw [List.chain'_cons, ← ih]
      simp only [noDoubleHyphen, Bool.and_eq_true, Bool.not_eq_true']
      constructor
      · rintro ⟨h1, h2⟩
        refine ⟨?_, h2⟩
        intro ⟨ha, hb⟩
        subst ha; subst hb
        simp at h1
      · rintro ⟨h1, h2⟩
        refine ⟨?_, h2⟩
        by_cases ha : a = '-'
        · by_cases hb : b = '-'
          · exact absurd ⟨ha, hb⟩ h1
          · simp [beq_eq_false_iff_ne.mpr hb]
        · simp [beq_eq_false_iff_ne.mpr ha]

lemma noDH_reverse {l : LC} (h : noDoubleHyphen l = true) :
    noDoubleHyphen l.reverse = true := by
  rw [noDH_iff_chain] at h ⊢
  rw [List.chain'_reverse]
  exact h.imp (fun a b hab => by
    intro ⟨h1, h2⟩
    exact hab ⟨h2, h1⟩)

lemma noDH_suffix {l l' : LC} (hs : l' <:+ l) (h : noDoubleHyphen l = true) :
    noDoubleHyphen l' = true := by
  rw [noDH_iff_chain] at h ⊢
  exact h.suffix hs

lemma all_suffix {p : Char → Bool} {l l' : LC} (hs : l' <:+ l) (h : l.all p = true) :
    l'.all p = true := by
  rw [List.all_eq_true] at h ⊢
  exact fun x hx => h x (hs.sublist.mem hx)

lemma all_reverse' {p : Char → Bool} {l : LC} (h : l.all p = true) :
    l.reverse.all p = true := by
  rw [List.all_eq_true] at h ⊢
  intro x hx
  exact h x (List.mem_reverse.mp hx)

lemma stripHyphens_all {p : Char → Bool} {l : LC} (h : l.all p = true) :
    (stripHyphens l).all p = true := by
  unfold stripHyphens
  exact all_reverse' (all_suffix (List.dropWhile_suffix _)
    (all_reverse' (all_suffix (List.dropWhile_suffix _) h)))

lemma stripHyphens_noDH {l : LC} (h : noDoubleHyphen l = true) :
    noDoubleHyphen (stripHyphens l) = true := by
  unfold stripHyphens
  exact noDH_reverse (noDH_suffix (List.dropWhile_suffix _)
    (noDH_reverse (noDH_suffix (List.dropWhile_suffix _) h)))

lemma takeWhile_eq_nil_of_head {p : Char → Bool} {l : LC}
    (h : ∀ c t, l = c :: t → p c = false) : l.takeWhile p = [] := by
  cases l with
  | nil => rfl
  | cons c t => rw [List.takeWhile_cons, if_neg (by simp [h c t rfl])]

lemma stripHyphens_reverse_head :
    ∀ (l : LC) (c : Char) (t : LC),
      (stripHyphens l).reverse = c :: t → (c == '-') = false := by
  intro l c t h
  unfold stripHyphens at h
  rw [List.reverse_reverse] at h
  exact dropWhile_head_false (p := fun c => c == '-') h

lemma stripHyphens_head :
    ∀ (l : LC) (c : Char) (t : LC), stripHyphens l = c :: t → (c == '-') = false := by
  intro l c t h
  unfold stripHyphens at h
  set A := l.dropWhile (fun c => c == '-') with hA
  have hpre : (A.reverse.dropWhile (fun c => c == '-')).reverse <+: A := by
    apply List.reverse_suffix.mp
    rw [List.reverse_reverse]
    exact List.dropWhile_suffix _
  rw [h] at hpre
  obtain ⟨t2, ht2⟩ := hpre
  have hA2 : l.dropWhile (fun c => c == '-') = c :: (t ++ t2) := by
    rw [← hA, ← ht2]; simp
  exact dropWhile_head_false (p := fun c => c == '-') hA2

lemma takeWhile_hyphen_nil_of_strip {l m : LC} (h : stripHyphens l = m) :
    m.takeWhile (fun c => c == '-') = [] := by
  apply takeWhile_eq_nil_of_head
  intro c t hct
  exact stripHyphens_head l c t (h ▸ hct)

lemma takeWhile_hyphen_nil_of_strip_rev {l m : LC} (h : stripHyphens l = m) :
    m.reverse.takeWhile (fun c => c == '-') = [] := by
  apply takeWhile_eq_nil_of_head
  intro c t hct
  exact stripHyphens_reverse_head l c t (h ▸ hct)

lemma goodChar_toNat {c : Char} (h : goodChar c = true) :
    c.toNat = 45 ∨ (48 ≤ c.toNat ∧ c.toNat ≤ 57) ∨ (97 ≤ c.toNat ∧ c.toNat ≤ 122) := by
  simp only [goodChar, isAlnumLC, Bool.or_eq_true, Bool.and_eq_true,
    decide_eq_true_eq, beq_iff_eq] at h
  rcases h with (h | h) | h
  · right; right; exact h
  · right; left; exact h
  · left; subst h; rfl

lemma toLower_fix_of_good {c : Char} (h : goodChar c = true) : c.toLower = c := by
  have h2 := goodChar_toNat h
  have : ¬ (c.toNat ≥ 65 ∧ c.toNat ≤ 90) := by omega
  simp only [Char.toLower]
  rw [if_neg this]

lemma goodChar_not_ws {c : Char} (h : goodChar c = true) : isJsWS c = false := by
  have h2 := goodChar_toNat h
  simp only [isJsWS, Bool.or_eq_false_iff, decide_eq_false_iff_not,
    Bool.and_eq_false_iff, not_le]
  omega

lemma map_toLower_fix {t : LC} (h : t.all goodChar = true) :
    t.map Char.toLower = t := by
  induction t with
  | nil => rfl
  | cons c r ih =>
    simp only [List.all_cons, Bool.and_eq_true] at h
    simp [List.map_cons, toLower_fix_of_good h.1, ih h.2]

lemma jsTrim_fix {t : LC} (h : t.all goodChar = true) : jsTrim t = t := by
  unfold jsTrim
  have h1 : t.dropWhile isJsWS = t := by
    apply dropWhile_eq_self_of_head
    intro c t2 hct
    exact goodChar_not_ws (List.all_eq_true.mp h c (by rw [hct]; simp))
  rw [h1]
  have h2 : t.reverse.dropWhile isJsWS = t.reverse := by
    apply dropWhile_eq_self_of_head
    intro c t2 hct
    have hc : c ∈ t := by
      have : c ∈ t.reverse := by rw [hct]; simp
      simpa using this
    exact goodChar_not_ws (List.all_eq_true.mp h c hc)
  rw [h2, List.reverse_reverse]

lemma noDoubleHyphen_tail {a : Char} {r : LC} (h : noDoubleHyphen (a :: r) = true) :
    noDoubleHyphen r = true := by
  cases r with
  | nil => rfl
  | cons b r2 =>
    simp only [noDoubleHyphen, Bool.and_eq_true] at h
    exact h.2

lemma collapseGo_fix : ∀ t : LC, t.all goodChar = true → noDoubleHyphen t = true →
    collapseGo false t = t ∧
    ((∀ h, t.head? = some h → isAlnumLC h = true) → collapseGo true t = t) := by
  intro t
  induction t with
  | nil => exact fun _ _ => ⟨rfl, fun _ => rfl⟩
  | cons c r ih =>
    intro hall hdh
    have hallr : r.all goodChar = true := by
      simp only [List.all_cons, Bool.and_eq_true] at hall
      exact hall.2
    have hgc : goodChar c = true := by
      simp only [List.all_cons, Bool.and_eq_true] at hall
      exact hall.1
    have hdhr : noDoubleHyphen r = true := noDoubleHyphen_tail hdh
    by_cases hc : isAlnumLC c = true
    · have h1 := (ih hallr hdhr).1
      exact ⟨by simp [collapseGo, hc, h1], fun _ => by simp [collapseGo, hc, h1]⟩
    · have hc' : c = '-' := by
        simp only [goodChar, hc, Bool.false_or, beq_iff_eq] at hgc
        exact hgc
      subst hc'
      have hrhead : ∀ h, r.head? = some h → isAlnumLC h = true := by
        intro h hh
        cases r with
        | nil => simp at hh
        | cons b r2 =>
          simp only [List.head?_cons, Option.some.injEq] at hh
          subst hh
          have hb : (b == '-') = false := by
            simp only [noDoubleHyphen, Bool.and_eq_true, Bool.not_eq_true',
              Bool.and_eq_false_iff] at hdh
            rcases hdh.1 with h1 | h1
            · exact absurd h1 (by decide)
            · exact h1
          have hgb : goodChar b = true := by
            simp only [List.all_cons, Bool.and_eq_true] at hallr
            exact hallr.1
          simp only [goodChar, Bool.or_eq_true] at hgb
          rcases hgb with hgb | hgb
          · exact hgb
          · rw [hgb] at hb; exact absurd hb (by decide)
      have h2 := (ih hallr hdhr).2 hrhead
      refine ⟨by simp [collapseGo, hc, h2], fun hhead => ?_⟩
      exact absurd (hhead '-' rfl) (by decide)

lemma stripHyphens_fix {t : LC}
    (h1 : t.takeWhile (fun c => c == '-') = [])
    (h2 : t.reverse.takeWhile (fun c => c == '-') = []) :
    stripHyphens t = t := by
  unfold stripHyphens
  have d1 : t.dropWhile (fun c => c == '-') = t := by
    cases t with
    | nil => rfl
    | cons c r =>
      rw [List.takeWhile_cons] at h1
      by_cases hp : (c == '-') = true
      · rw [if_pos hp] at h1; simp at h1
      · rw [List.dropWhile_cons, if_neg hp]
  rw [d1]
  have d2 : t.reverse.dropWhile (fun c => c == '-') = t.reverse := by
    rcases hrev : t.reverse with _ | ⟨c, r⟩
    · rfl
    · rw [hrev] at h2
      rw [List.takeWhile_cons] at h2
      by_cases hp : (c == '-') = true
      · rw [if_pos hp] at h2; simp at h2
      · rw [List.dropWhile_cons, if_neg hp]
  rw [d2, List.reverse_reverse]

/-- Claim C8: slugify is idempotent, and its output contains only lowercase
ASCII letters, digits and hyphens, with no two consecutive hyphens and no
leading or trailing hyphen (the two takeWhile conjuncts state that the leading
and trailing hyphen runs are empty). -/
theorem claim_C8_slugify_idempotent (s : LC) :
    slugify (slugify s) = slugify s ∧
    (slugify s).all goodChar = true ∧
    noDoubleHyphen (slugify s) = true ∧
    (slugify s).takeWhile (fun c => c == '-') = [] ∧
    (slugify s).reverse.takeWhile (fun c => c == '-') = [] := by
  have hall : (slugify s).all goodChar = true :=
    stripHyphens_all (collapseGo_all_good _ _)
  have hdh : noDoubleHyphen (slugify s) = true :=
    stripHyphens_noDH (collapseGo_noDH _ _)
  have h1 : (slugify s).takeWhile (fun c => c == '-') = [] :=
    takeWhile_hyphen_nil_of_strip (l := jsTrim (s.map Char.toLower) |> collapseGo false) rfl
  have h2 : (slugify s).reverse.takeWhile (fun c => c == '-') = [] :=
    takeWhile_hyphen_nil_of_strip_rev (l := jsTrim (s.map Char.toLower) |> collapseGo false) rfl
  refine ⟨?_, hall, hdh, h1, h2⟩
  show stripHyphens (collapseGo false (jsTrim ((slugify s).map Char.toLower))) = slugify s
  rw [map_toLower_fix hall, jsTrim_fix hall, (collapseGo_fix _ hall hdh).1,
    stripHyphens_fix h1 h2]

/-! ## renderTemplate (src/index.ts lines 54-61)

`tmpl.replace(/\{\{([^}]+)\}\}/g, (_, rawKey) => { const [key, def] =
rawKey.split("|").map(s => s.trim()); const val = vars[key]; return val ?? def
?? ""; })`.

The regex matches two opening braces, a nonempty run of characters other than
the closing brace, and two closing braces; because the run cannot contain a
closing brace, backtracking never produces a different match, so a match at a
position exists exactly when the maximal run of non-closing-brace characters
after the two opening braces is nonempty and is followed by two closing
braces.  The global replacement scans left to right and never rescans
replacement text. -/

/-- Try to match the variable pattern at the head of the string.  On success
returns the captured raw key and the text after the match. -/
def matchVar (s : LC) : Option (LC × LC) :=
  match s with
  | c1 :: c2 :: body =>
    if c1 = '{' && c2 = '{' then
      match body.takeWhile (fun c => c != '}'), body.dropWhile (fun c => c != '}') with
      | _ :: _, _ :: d2 :: tail =>
        if d2 = '}' then some (body.takeWhile (fun c => c != '}'), tail) else none
      | _, _ => none
    else none
  | _ => none

/-- JavaScript `String.prototype.split` with a single-character separator. -/
def splitOnChar (sep : Char) : LC → List LC
  | [] => [[]]
  | c :: rest =>
    if c = sep then [] :: splitOnChar sep rest
    else
      match splitOnChar sep rest with
      | l :: ls => (c :: l) :: ls
      | [] => [[c]]

/-- Property access `vars[key]` on the variable record, embedded as an
association list. -/
def lookupVar (vars : List (LC × LC)) (k : LC) : Option LC :=
  (vars.find? (fun e => e.1 == k)).map (fun e => e.2)

/-- The replacement callback: split the captured key on the pipe, trim the
first two fragments, and return `val ?? def ?? ""`. -/
def resolveKey (vars : List (LC × LC)) (rawKey : LC) : LC :=
  let parts := (splitOnChar '|' rawKey).map jsTrim
  let key := parts.headD []
  match lookupVar vars key with
  | some v => v
  | none =>
    match (parts.drop 1).head? with
    | some d => d
    | none => []

/-- The global-replacement scan, with fuel equal to the number of characters
still to be scanned (each step consumes at least one character, so the fuel
given by renderTemplate never runs out). -/
def renderGo (vars : List (LC × LC)) : Nat → LC → LC
  | 0, t => t
  | _ + 1, [] => []
  | fuel + 1, c :: rest =>
    match matchVar (c :: rest) with
    | some (rawKey, tail) => resolveKey vars rawKey ++ renderGo vars fuel tail
    | none => c :: renderGo vars fuel rest

/-- renderTemplate, as in src/index.ts lines 54-61. -/
def renderTemplate (tmpl : LC) (vars : List (LC × LC)) : LC :=
  renderGo vars tmpl.length tmpl

/-! ## Rendering lemmas -/

lemma matchVar_length {s rk tail : LC} (h : matchVar s = some (rk, tail)) :
    s.length = rk.length + tail.length + 4 ∧ rk ≠ [] := by
  match s with
  | [] => simp [matchVar] at h
  | [c1] => simp [matchVar] at h
  | c1 :: c2 :: body =>
    rw [matchVar] at h
    split at h
    · split at h
      · next a run d1 d2 tail2 htk hdr =>
        split at h
        · next hd2 =>
          simp only [Option.some.injEq, Prod.mk.injEq] at h
          obtain ⟨h1, h2⟩ := h
          have hlen : body.length = (a :: run).length + (d1 :: d2 :: tail2).length := by
            conv_lhs => rw [← List.takeWhile_append_dropWhile (fun c => c != '}') body]
            rw [htk, hdr, List.length_append]
          constructor
          · rw [← h1, ← h2, htk]
            simp only [List.length_cons] at hlen ⊢
            omega
          · rw [← h1, htk]; simp
        · simp at h
      · simp at h
    · simp at h

lemma renderGo_fuel (vars : List (LC × LC)) :
    ∀ (fuel : Nat) (t : LC), t.length ≤ fuel →
      renderGo vars fuel t = renderGo vars t.length t := by
  intro fuel
  induction fuel using Nat.strong_induction_on with
  | _ fuel ih =>
    match fuel with
    | 0 =>
      intro t ht
      have ht0 : t = [] := List.length_eq_zero.mp (Nat.le_zero.mp ht)
      subst ht0; rfl
    | n + 1 =>
      intro t ht
      match t with
      | [] => rfl
      | c :: rest =>
        simp only [List.length_cons] at ht ⊢
        cases hm : matchVar (c :: rest) with
        | none =>
          simp only [renderGo, hm]
          rw [ih n (Nat.lt_succ_self n) rest (by omega)]
        | some p =>
          obtain ⟨rk, tail⟩ := p
          obtain ⟨hlen, -⟩ := matchVar_length hm
          simp only [List.length_cons] at hlen
          simp only [renderGo, hm]
          rw [ih n (Nat.lt_succ_self n) tail (by omega),
            ih rest.length (by omega) tail (by omega)]

/-- A sufficient fuel computes renderTemplate. -/
lemma renderGo_eq_render (vars : List (LC × LC)) {fuel : Nat} {t : LC}
    (h : t.length ≤ fuel) : renderGo vars fuel t = renderTemplate t vars :=
  renderGo_fuel vars fuel t h

lemma matchVar_none_of_ne {c : Char} (rest : LC) (h : c ≠ '{') :
    matchVar (c :: rest) = none := by
  cases rest with
  | nil => rfl
  | cons c2 body =>
    rw [matchVar, if_neg (by simp [h])]

lemma render_cons_lit {c : Char} {rest : LC} (vars : List (LC × LC)) (h : c ≠ '{') :
    renderTemplate (c :: rest) vars = c :: renderTemplate rest vars := by
  rw [renderTemplate]
  simp only [List.length_cons]
  simp only [renderGo, matchVar_none_of_ne rest h]
  rfl

lemma render_append_lit {s rest : LC} (vars : List (LC × LC))
    (h : s.all (fun c => c != '{') = true) :
    renderTemplate (s ++ rest) vars = s ++ renderTemplate rest vars := by
  induction s with
  | nil => simp
  | cons c s2 ih =>
    simp only [List.all_cons, Bool.and_eq_true] at h
    have hc : c ≠ '{' := by simpa using h.1
    rw [List.cons_append, render_cons_lit vars hc, ih h.2]
    simp

lemma takeWhile_append_stop {p : Char → Bool} :
    ∀ (l1 : LC) (a : Char) (l2 : LC), (∀ c ∈ l1, p c = true) → p a = false →
      (l1 ++ a :: l2).takeWhile p = l1 ∧ (l1 ++ a :: l2).dropWhile p = a :: l2 := by
  intro l1 a l2 h1 ha
  induction l1 with
  | nil => simp [List.takeWhile_cons, List.dropWhile_cons, ha]
  | cons c t ih =>
    have hc : p c = true := h1 c (by simp)
    obtain ⟨ih1, ih2⟩ := ih (fun x hx => h1 x (by simp [hx]))
    simp [List.takeWhile_cons, List.dropWhile_cons, hc, ih1, ih2]

lemma render_token (vars : List (LC × LC)) {k rest : LC} (hk : k ≠ [])
    (hne : ∀ c ∈ k, c ≠ '}') :
    renderTemplate ('{' :: '{' :: (k ++ '}' :: '}' :: rest)) vars =
      resolveKey vars k ++ renderTemplate rest vars := by
  have hall : ∀ c ∈ k, (fun c => c != '}') c = true := fun c hc => by
    simpa using hne c hc
  obtain ⟨htk, hdr⟩ := takeWhile_append_stop k '}' ('}' :: rest) hall (by simp)
  have hm : matchVar ('{' :: '{' :: (k ++ '}' :: '}' :: rest)) = some (k, rest) := by
    rw [matchVar, if_pos (by simp)]
    rw [htk, hdr]
    cases k with
    | nil => exact absurd rfl hk
    | cons a k2 => simp
  rw [renderTemplate]
  simp only [List.length_cons]
  simp only [renderGo, hm]
  congr 1
  apply renderGo_eq_render
  simp [List.length_append]
  omega

/-! ## Split, lookup and key resolution lemmas -/

lemma splitOnChar_no_sep {sep : Char} :
    ∀ {l : LC}, (∀ c ∈ l, c ≠ sep) → splitOnChar sep l = [l] := by
  intro l
  induction l with
  | nil => intro _; rfl
  | cons c t ih =>
    intro h
    rw [splitOnChar, if_neg (h c (by simp)), ih (fun x hx => h x (by simp [hx]))]

lemma splitOnChar_sep_append {sep : Char} {k d : LC} (hk : ∀ c ∈ k, c ≠ sep) :
    splitOnChar sep (k ++ sep :: d) = k :: splitOnChar sep d := by
  induction k with
  | nil => simp [splitOnChar]
  | cons c t ih =>
    rw [List.cons_append, splitOnChar, if_neg (hk c (by simp)),
      ih (fun x hx => hk x (by simp [hx]))]

lemma resolveKey_no_pipe (vars : List (LC × LC)) {k : LC}
    (hs : ∀ c ∈ k, c ≠ '|') (ht : jsTrim k = k) :
    resolveKey vars k = (lookupVar vars k).getD [] := by
  rw [resolveKey, splitOnChar_no_sep hs]
  simp only [List.map_cons, List.map_nil, List.headD_cons, ht]
  cases lookupVar vars k <;> simp

lemma resolveKey_pipe (vars : List (LC × LC)) {k d : LC}
    (hk : ∀ c ∈ k, c ≠ '|') (hd : ∀ c ∈ d, c ≠ '|')
    (htk : jsTrim k = k) (htd : jsTrim d = d) :
    resolveKey vars (k ++ '|' :: d) = (lookupVar vars k).getD d := by
  rw [resolveKey, splitOnChar_sep_append hk, splitOnChar_no_sep hd]
  simp only [List.map_cons, List.map_nil, List.headD_cons, htk, htd]
  cases lookupVar vars k <;> simp

/-! ## Templates as segments

To state that renderTemplate replaces every occurrence of a token, a template
is presented as a sequence of literal segments and variable tokens. -/

inductive Seg
  | lit (s : LC)
  | var (key : LC) (deflt : Option LC)

def flattenSeg : Seg → LC
  | .lit s => s
  | .var k none => '{' :: '{' :: (k ++ ['}', '}'])
  | .var k (some d) => '{' :: '{' :: (k ++ '|' :: (d ++ ['}', '}']))

/-- The template text denoted by a sequence of segments. -/
def flatten (segs : List Seg) : LC := (segs.map flattenSeg).flatten

def keyWF (k : LC) : Bool :=
  !k.isEmpty && k.all (fun c => c != '}' && c != '|') && (jsTrim k == k)

def defWF : Option LC → Bool
  | none => true
  | some d => d.all (fun c => c != '}' && c != '|') && (jsTrim d == d)

/-- Well-formed segment: literal text carries no brace, keys and defaults
carry no closing brace and no pipe and are trim-invariant. -/
def segWF : Seg → Bool
  | .lit s => s.all (fun c => c != '{' && c != '}')
  | .var k d => keyWF k && defWF d

def segsWF (l : List Seg) : Bool := l.all segWF

/-- Modelled from the spec (as amended by claim C2): every token is replaced
by the mapping's value for its key — also when that value is the empty
string — or by the default when the key is absent, or by the empty string when
the key is absent and the token carries no default; literal text is kept. -/
def renderSpec (vars : List (LC × LC)) : List Seg → LC
  | [] => []
  | .lit s :: rest => s ++ renderSpec vars rest
  | .var k d :: rest => (lookupVar vars k).getD (d.getD []) ++ renderSpec vars rest

lemma render_flatten (vars : List (LC × LC)) :
    ∀ segs : List Seg, segsWF segs = true →
      renderTemplate (flatten segs) vars = renderSpec vars segs := by
  intro segs
  induction segs with
  | nil => intro _; rfl
  | cons sg rest ih =>
    intro h
    simp only [segsWF, List.all_cons, Bool.and_eq_true] at h
    obtain ⟨h1, h2⟩ := h
    have hrest := ih h2
    match sg with
    | .lit s =>
      have hs : s.all (fun c => c != '{') = true := by
        simp only [segWF, List.all_eq_true, Bool.and_eq_true] at h1 ⊢
        exact fun x hx => (h1 x hx).1
      rw [show flatten (Seg.lit s :: rest) = s ++ flatten rest by
        simp [flatten, flattenSeg]]
      rw [render_append_lit vars hs, hrest]
      rfl
    | .var k dopt =>
      simp only [segWF, keyWF, Bool.and_eq_true] at h1
      obtain ⟨⟨⟨hk0, hkc⟩, hkt⟩, hdwf⟩ := h1
      have hk0' : k ≠ [] := by simpa using hk0
      have hkc1 : ∀ c ∈ k, c ≠ '}' := by
        rw [List.all_eq_true] at hkc
        intro c hc
        simpa using ((by simpa using hkc c hc) : (c != '}') = true ∧ (c != '|') = true).1
      have hkc2 : ∀ c ∈ k, c ≠ '|' := by
        rw [List.all_eq_true] at hkc
        intro c hc
        simpa using ((by simpa using hkc c hc) : (c != '}') = true ∧ (c != '|') = true).2
      have hkt' : jsTrim k = k := by simpa using hkt
      match dopt with
      | none =>
        rw [show flatten (Seg.var k none :: rest) =
            '{' :: '{' :: (k ++ '}' :: '}' :: flatten rest) by
          simp [flatten, flattenSeg]]
        rw [render_token vars hk0' hkc1, resolveKey_no_pipe vars hkc2 hkt', hrest]
        rw [renderSpec]
        simp
      | some d =>
        simp only [defWF, Bool.and_eq_true] at hdwf
        obtain ⟨hdc, hdt⟩ := hdwf
        have hdc1 : ∀ c ∈ d, c ≠ '}' := by
          rw [List.all_eq_true] at hdc
          intro c hc
          simpa using ((by simpa using hdc c hc) : (c != '}') = true ∧ (c != '|') = true).1
        have hdc2 : ∀ c ∈ d, c ≠ '|' := by
          rw [List.all_eq_true] at hdc
          intro c hc
          simpa using ((by simpa using hdc c hc) : (c != '}') = true ∧ (c != '|') = true).2
        have hdt' : jsTrim d = d := by simpa using hdt
        have hrun : ∀ c ∈ k ++ '|' :: d, c ≠ '}' := by
          intro c hc
          rcases List.mem_append.mp hc with hc | hc
          · exact hkc1 c hc
          · rcases List.mem_cons.mp hc with hc | hc
            · subst hc; decide
            · exact hdc1 c hc
        rw [show flatten (Seg.var k (some d) :: rest) =
            '{' :: '{' :: ((k ++ '|' :: d) ++ '}' :: '}' :: flatten rest) by
          simp [flatten, flattenSeg]]
        rw [render_token vars (by simp) hrun,
          resolveKey_pipe vars hkc2 hdc2 hkt' hdt', hrest]
        rw [renderSpec]
        simp

/-! ## Claims C2, C3, C10 about renderTemplate -/

/-- Claim C2, counterexample: the claim says a token with a default renders as
the default when the key's value is the empty string; the code returns the
empty value itself (the nullish coalescing operator does not treat the empty
string as absent), so rendering the single token with key k and default d
against the mapping that binds k to the empty string yields the empty string
and not the default. -/
theorem claim_C2_counterexample :
    renderTemplate ('{' :: '{' :: ('k' :: '|' :: 'd' :: '}' :: '}' :: []))
        [(['k'], [])] = [] ∧
    renderTemplate ('{' :: '{' :: ('k' :: '|' :: 'd' :: '}' :: '}' :: []))
        [(['k'], [])] ≠ ['d'] := by
  decide

/-- Claim C2 (amended): for every template given as well-formed literal and
token segments and every variable mapping, renderTemplate replaces every
occurrence of a token by the mapping's value for its key — also when that
value is the empty string — or by the default when the key is absent, or by
the empty string when the key is absent and no default is given; literal text
is kept unchanged. -/
theorem claim_C2_renders_every_token (segs : List Seg) (vars : List (LC × LC))
    (h : segsWF segs = true) :
    renderTemplate (flatten segs) vars = renderSpec vars segs :=
  render_flatten vars segs h

theorem claim_C2_renders_every_token_witness :
    segsWF [Seg.lit ('a' :: ' ' :: []), Seg.var ['k'] (some ['d']),
      Seg.var ['m'] (some ['f']), Seg.lit ['!']] = true ∧
    renderTemplate
        (flatten [Seg.lit ('a' :: ' ' :: []), Seg.var ['k'] (some ['d']),
          Seg.var ['m'] (some ['f']), Seg.lit ['!']]) [(['k'], ['V'])] =
      renderSpec [(['k'], ['V'])]
        [Seg.lit ('a' :: ' ' :: []), Seg.var ['k'] (some ['d']),
          Seg.var ['m'] (some ['f']), Seg.lit ['!']] :=
  ⟨by decide,
    claim_C2_renders_every_token
      [Seg.lit ('a' :: ' ' :: []), Seg.var ['k'] (some ['d']),
        Seg.var ['m'] (some ['f']), Seg.lit ['!']] [(['k'], ['V'])] (by decide)⟩

/-- Claim C3: a token with key k and default d renders as d when k is absent
from the mapping, and as the mapping's value for k whenever k is present, even
when that present value is the empty string (the empty string wins over the
fallback). -/
theorem claim_C3_default_precedence (vars : List (LC × LC)) (k d v : LC)
    (hk0 : k ≠ []) (hk1 : ∀ c ∈ k, c ≠ '}') (hk2 : ∀ c ∈ k, c ≠ '|')
    (hk3 : jsTrim k = k)
    (hd1 : ∀ c ∈ d, c ≠ '}') (hd2 : ∀ c ∈ d, c ≠ '|') (hd3 : jsTrim d = d) :
    (lookupVar vars k = none →
      renderTemplate ('{' :: '{' :: (k ++ '|' :: (d ++ ['}', '}']))) vars = d) ∧
    (lookupVar vars k = some v →
      renderTemplate ('{' :: '{' :: (k ++ '|' :: (d ++ ['}', '}']))) vars = v) := by
  have hrearr : '{' :: '{' :: (k ++ '|' :: (d ++ ['}', '}'])) =
      '{' :: '{' :: ((k ++ '|' :: d) ++ '}' :: '}' :: ([] : LC)) := by simp
  have hrun : ∀ c ∈ k ++ '|' :: d, c ≠ '}' := by
    intro c hc
    rcases List.mem_append.mp hc with hc | hc
    · exact hk1 c hc
    · rcases List.mem_cons.mp hc with hc | hc
      · subst hc; decide
      · exact hd1 c hc
  rw [hrearr, render_token vars (by simp) hrun,
    resolveKey_pipe vars hk2 hd2 hk3 hd3]
  constructor <;> intro h <;> simp [h, renderTemplate, renderGo]

theorem claim_C3_default_precedence_witness :
    lookupVar [(['k'], [])] ['k'] = some [] ∧
    renderTemplate ('{' :: '{' :: (['k'] ++ '|' :: (['d'] ++ ['}', '}'])))
      [(['k'], [])] = [] :=
  ⟨by decide,
    (claim_C3_default_precedence [(['k'], [])] ['k'] ['d'] []
      (by decide) (by decide) (by decide) (by decide)
      (by decide) (by decide) (by decide)).2 (by decide)⟩

/-- Claim C10: renderTemplate performs a single substitution pass: the value
substituted for a token is copied into the output verbatim — also when it
itself contains placeholder-shaped text — and is never expanded again; the
scan continues after the substituted value. -/
theorem claim_C10_single_pass (vars : List (LC × LC)) (k v rest : LC)
    (hk0 : k ≠ []) (hk1 : ∀ c ∈ k, c ≠ '}') (hk2 : ∀ c ∈ k, c ≠ '|')
    (hk3 : jsTrim k = k) (hv : lookupVar vars k = some v) :
    renderTemplate ('{' :: '{' :: (k ++ '}' :: '}' :: rest)) vars =
      v ++ renderTemplate rest vars := by
  rw [render_token vars hk0 hk1, resolveKey_no_pipe vars hk2 hk3, hv]
  rfl

theorem claim_C10_single_pass_witness :
    lookupVar [(['a'], '{' :: '{' :: ('t' :: 'i' :: 't' :: 'l' :: 'e' :: '}' :: '}' :: [])),
        (('t' :: 'i' :: 't' :: 'l' :: 'e' :: []), ['X'])] ['a'] =
      some ('{' :: '{' :: ('t' :: 'i' :: 't' :: 'l' :: 'e' :: '}' :: '}' :: [])) ∧
    renderTemplate ('{' :: '{' :: (['a'] ++ '}' :: '}' :: []))
        [(['a'], '{' :: '{' :: ('t' :: 'i' :: 't' :: 'l' :: 'e' :: '}' :: '}' :: [])),
          (('t' :: 'i' :: 't' :: 'l' :: 'e' :: []), ['X'])] =
      ('{' :: '{' :: ('t' :: 'i' :: 't' :: 'l' :: 'e' :: '}' :: '}' :: [])) ++
        renderTemplate []
          [(['a'], '{' :: '{' :: ('t' :: 'i' :: 't' :: 'l' :: 'e' :: '}' :: '}' :: [])),
            (('t' :: 'i' :: 't' :: 'l' :: 'e' :: []), ['X'])] :=
  ⟨by decide,
    claim_C10_single_pass _ ['a'] _ []
      (by decide) (by decide) (by decide) (by decide) (by decide)⟩

/-! ## JavaScript `String.prototype.replace` with a plain-string pattern

Replaces the first occurrence of the pattern only. -/

def replaceFirst (pat repl : LC) : LC → LC
  | [] => if pat.isEmpty then repl else []
  | c :: rest =>
    if pat.isPrefixOf (c :: rest) then repl ++ (c :: rest).drop pat.length
    else c :: replaceFirst pat repl rest

/-- The literal cursor marker text. -/
def cursorPat : LC := '{' :: '{' :: ('c' :: 'u' :: 'r' :: 's' :: 'o' :: 'r' :: '}' :: '}' :: [])

/-- `content.replace("{{cursor}}", "")` as in src/index.ts lines 302 and 329. -/
def stripCursor (l : LC) : LC := replaceFirst cursorPat [] l

/-- Substring occurrence test (scanning left to right). -/
def containsSub (pat : LC) : LC → Bool
  | [] => pat.isEmpty
  | c :: rest => pat.isPrefixOf (c :: rest) || containsSub pat rest

/-! ## File maps

A directory listing is embedded as an association list from file name to file
content; `writeFileSync` overwrites an existing entry or appends a new one,
`unlinkSync` removes an entry. -/

abbrev Entry := LC × LC

def writeEntry (l : List Entry) (n c : LC) : List Entry :=
  if l.any (fun e => e.1 == n) then
    l.map (fun e => if e.1 == n then (n, c) else e)
  else l ++ [(n, c)]

def removeEntry (l : List Entry) (n : LC) : List Entry :=
  l.filter (fun e => e.1 != n)

def lookupEntry (l : List Entry) (n : LC) : Option LC :=
  (l.find? (fun e => e.1 == n)).map (fun e => e.2)

lemma lookupEntry_cons_pos {e : Entry} {t : List Entry} {n : LC}
    (h : e.1 = n) : lookupEntry (e :: t) n = some e.2 := by
  rw [lookupEntry, List.find?_cons_of_pos t (by simp [h])]
  rfl

lemma lookupEntry_cons_neg {e : Entry} {t : List Entry} {n : LC}
    (h : e.1 ≠ n) : lookupEntry (e :: t) n = lookupEntry t n := by
  rw [lookupEntry, List.find?_cons_of_neg t (by simp [h])]
  rfl

lemma lookupEntry_write_self (l : List Entry) (n c : LC) :
    lookupEntry (writeEntry l n c) n = some c := by
  rw [writeEntry]
  by_cases h : l.any (fun e => e.1 == n) = true
  · rw [if_pos h]
    induction l with
    | nil => simp at h
    | cons e t ih =>
      by_cases he : e.1 = n
      · rw [List.map_cons, if_pos (by simp [he])]
        exact lookupEntry_cons_pos rfl
      · rw [List.map_cons, if_neg (by simp [he])]
        rw [lookupEntry_cons_neg he]
        simp only [List.any_cons, Bool.or_eq_true] at h
        rcases h with h | h
        · exact absurd (by simpa using h) he
        · exact ih h
  · rw [if_neg h]
    induction l with
    | nil => exact lookupEntry_cons_pos rfl
    | cons e t ih =>
      simp only [List.any_cons, Bool.or_eq_true, not_or] at h
      have he : e.1 ≠ n := by
        intro he2
        exact h.1 (by simp [he2])
      rw [List.cons_append, lookupEntry_cons_neg he]
      exact ih (by simpa using h.2)

lemma lookupEntry_remove_self (l : List Entry) (n : LC) :
    lookupEntry (removeEntry l n) n = none := by
  induction l with
  | nil => rfl
  | cons e t ih =>
    rw [removeEntry, List.filter_cons]
    by_cases he : e.1 = n
    · rw [if_neg (by simp [he])]
      exact ih
    · rw [if_pos (by simp [he])]
      rw [show List.filter (fun e => e.1 != n) t = removeEntry t n from rfl]
      rw [lookupEntry_cons_neg he]
      exact ih

lemma lookupEntry_remove_ne (l : List Entry) {m n : LC} (h : m ≠ n) :
    lookupEntry (removeEntry l n) m = lookupEntry l m := by
  induction l with
  | nil => rfl
  | cons e t ih =>
    rw [removeEntry, List.filter_cons]
    by_cases he : e.1 = n
    · rw [if_neg (by simp [he])]
      rw [show List.filter (fun e => e.1 != n) t = removeEntry t n from rfl]
      rw [ih, lookupEntry_cons_neg (by rw [he]; exact fun h2 => h h2.symm)]
    · rw [if_pos (by simp [he])]
      rw [show List.filter (fun e => e.1 != n) t = removeEntry t n from rfl]
      by_cases hm : e.1 = m
      · rw [lookupEntry_cons_pos hm, lookupEntry_cons_pos hm]
      · rw [lookupEntry_cons_neg hm, lookupEntry_cons_neg hm, ih]

/-! ## createEntity, single-file template branch (src/index.ts lines 287-308)

Renders the template's file path, fails when a file at that path already
exists, otherwise writes the rendered body with the first remaining cursor
marker removed.  The Boolean result is the success flag (false corresponds to
exit code 1); on failure the file map is returned unchanged. -/

def createEntitySingle (fs : List Entry) (filePathTpl bodyTpl : LC)
    (vars : List (LC × LC)) : Bool × List Entry :=
  let fp := renderTemplate filePathTpl vars
  if fs.any (fun e => e.1 == fp) then (false, fs)
  else (true, writeEntry fs fp (stripCursor (renderTemplate bodyTpl vars)))

/-- Claim C7: when the rendered target path already exists, the command
fails (success flag false, exit code 1) and performs no mutation — the file
map is returned unchanged, so the pre-existing file's content and every other
file are intact; as a consequence, running the same single-file creation
twice fails the second time with the first run's content in place. -/
theorem claim_C7_existing_target_no_mutation (fs fs1 : List Entry)
    (pt bt : LC) (vars : List (LC × LC)) :
    (fs.any (fun e => e.1 == renderTemplate pt vars) = true →
      createEntitySingle fs pt bt vars = (false, fs)) ∧
    (createEntitySingle fs pt bt vars = (true, fs1) →
      createEntitySingle fs1 pt bt vars = (false, fs1) ∧
      lookupEntry fs1 (renderTemplate pt vars) =
        some (stripCursor (renderTemplate bt vars))) := by
  constructor
  · intro hex
    rw [createEntitySingle, if_pos hex]
  · intro h
    rw [createEntitySingle] at h
    by_cases hex : fs.any (fun e => e.1 == renderTemplate pt vars) = true
    · rw [if_pos hex] at h
      simp at h
    · rw [if_neg hex] at h
      simp only [Prod.mk.injEq, true_and] at h
      have hw : fs1 = writeEntry fs (renderTemplate pt vars)
          (stripCursor (renderTemplate bt vars)) := h.symm
      have hlook : lookupEntry fs1 (renderTemplate pt vars) =
          some (stripCursor (renderTemplate bt vars)) := by
        rw [hw]; exact lookupEntry_write_self _ _ _
      refine ⟨?_, hlook⟩
      rw [createEntitySingle]
      have hany : fs1.any (fun e => e.1 == renderTemplate pt vars) = true := by
        rcases hfind : fs1.find? (fun e => e.1 == renderTemplate pt vars) with _ | e
        · rw [lookupEntry, hfind] at hlook
          simp at hlook
        · rw [List.any_eq_true]
          exact ⟨e, List.mem_of_find?_eq_some hfind,
            List.find?_some (p := fun x : Entry => x.1 == renderTemplate pt vars) hfind⟩
      rw [if_pos hany]

theorem claim_C7_existing_target_no_mutation_witness :
    createEntitySingle [] ['f'] ('x' :: '!' :: []) [] =
      (true, [(['f'], 'x' :: '!' :: [])]) ∧
    createEntitySingle [(['f'], 'x' :: '!' :: [])] ['f'] ('x' :: '!' :: []) [] =
      (false, [(['f'], 'x' :: '!' :: [])]) ∧
    lookupEntry [(['f'], 'x' :: '!' :: [])] (renderTemplate ['f'] []) =
      some (stripCursor (renderTemplate ('x' :: '!' :: []) [])) :=
  ⟨by decide,
    ((claim_C7_existing_target_no_mutation [] [(['f'], 'x' :: '!' :: [])]
      ['f'] ('x' :: '!' :: []) []).2 (by decide)).1,
    ((claim_C7_existing_target_no_mutation [] [(['f'], 'x' :: '!' :: [])]
      ['f'] ('x' :: '!' :: []) []).2 (by decide)).2⟩

/-! ## Claim C9: the cursor marker in written content -/

/-- Claim C9, counterexample: `content.replace("\x7b\x7bcursor\x7d\x7d", "")`
removes only the first occurrence; a variable value equal to the literal
marker text, substituted twice, leaves one occurrence in the written file.
Here the body template is the token for the key title twice, and the mapping
binds title to the marker text: the created file's content is exactly one
literal cursor marker. -/
theorem claim_C9_counterexample :
    createEntitySingle [] ['f']
        ('{' :: '{' :: ('t' :: 'i' :: 't' :: 'l' :: 'e' :: '}' :: '}' ::
          '{' :: '{' :: 't' :: 'i' :: 't' :: 'l' :: 'e' :: '}' :: '}' :: []))
        [(('t' :: 'i' :: 't' :: 'l' :: 'e' :: []), cursorPat)] =
      (true, [(['f'], cursorPat)]) ∧
    containsSub cursorPat cursorPat = true := by
  decide

lemma cursorPat_no_match {c : Char} {rest : LC} (h : c ≠ '{') :
    cursorPat.isPrefixOf (c :: rest) = false := by
  rw [cursorPat]
  simp only [List.isPrefixOf, Bool.and_eq_false_iff]
  left
  exact beq_eq_false_iff_ne.mpr (fun h2 => h h2.symm)

lemma containsSub_cursor_of_noBrace :
    ∀ {l : LC}, l.all (fun c => c != '{') = true →
      containsSub cursorPat l = false := by
  intro l
  induction l with
  | nil => intro _; rfl
  | cons c rest ih =>
    intro h
    simp only [List.all_cons, Bool.and_eq_true] at h
    rw [containsSub, cursorPat_no_match (by simpa using h.1), ih h.2]
    rfl

lemma stripCursor_of_noBrace : ∀ {l : LC}, l.all (fun c => c != '{') = true →
    stripCursor l = l := by
  intro l
  induction l with
  | nil => intro _; rfl
  | cons c rest ih =>
    intro h
    simp only [List.all_cons, Bool.and_eq_true] at h
    rw [stripCursor, replaceFirst,
      if_neg (by rw [cursorPat_no_match (by simpa using h.1)]; simp)]
    rw [show replaceFirst cursorPat [] rest = stripCursor rest from rfl, ih h.2]

/-- No variable value contains an opening brace. -/
def valsNoBrace (vars : List (LC × LC)) : Bool :=
  vars.all (fun e => e.2.all (fun c => c != '{'))

/-- No token default contains an opening brace. -/
def defsNoBrace (segs : List Seg) : Bool :=
  segs.all (fun s => match s with
    | .lit _ => true
    | .var _ none => true
    | .var _ (some d) => d.all (fun c => c != '{'))

lemma lookupVar_mem {vars : List (LC × LC)} {k v : LC}
    (h : lookupVar vars k = some v) : ∃ e ∈ vars, e.2 = v := by
  rw [lookupVar] at h
  rcases hf : vars.find? (fun e => e.1 == k) with _ | e
  · rw [hf] at h; exact absurd h (by simp)
  · rw [hf] at h
    simp only [Option.map_some', Option.some.injEq] at h
    exact ⟨e, List.mem_of_find?_eq_some hf, h⟩

lemma renderSpec_noBrace (vars : List (LC × LC)) :
    ∀ segs : List Seg, segsWF segs = true → valsNoBrace vars = true →
      defsNoBrace segs = true →
      (renderSpec vars segs).all (fun c => c != '{') = true := by
  intro segs
  induction segs with
  | nil => intro _ _ _; rfl
  | cons sg rest ih =>
    intro hwf hv hd
    simp only [segsWF, defsNoBrace, List.all_cons, Bool.and_eq_true] at hwf hd
    have hrest := ih hwf.2 hv hd.2
    match sg with
    | .lit s =>
      rw [renderSpec, List.all_append]
      have hs : s.all (fun c => c != '{') = true := by
        have h1 := hwf.1
        simp only [segWF, List.all_eq_true, Bool.and_eq_true] at h1
        rw [List.all_eq_true]
        exact fun x hx => (h1 x hx).1
      simp [hs, hrest]
    | .var k dopt =>
      rw [renderSpec, List.all_append]
      have hval : ((lookupVar vars k).getD (dopt.getD [])).all
          (fun c => c != '{') = true := by
        rcases hl : lookupVar vars k with _ | v
        · rcases dopt with _ | d
          · rfl
          · have h1 := hd.1
            simpa using h1
        · obtain ⟨e, he, hev⟩ := lookupVar_mem hl
          rw [valsNoBrace, List.all_eq_true] at hv
          simpa [hev] using hv e he
      simp [hval, hrest]

/-- Claim C9 (amended): substitution itself replaces every cursor token
(the cursor key is unset, so each renders as the empty string), and only the
first cursor occurrence surviving in the rendered text is deleted before the
file is written; the written content is free of the marker whenever no
variable value and no token default carries an opening brace.  (A variable
value containing the marker text more than once leaves occurrences in the
file, as the counterexample shows.) -/
theorem claim_C9_cursor_absent (segs : List Seg) (vars : List (LC × LC))
    (fs fs1 : List Entry) (pt : LC)
    (hwf : segsWF segs = true) (hv : valsNoBrace vars = true)
    (hd : defsNoBrace segs = true)
    (hcr : createEntitySingle fs pt (flatten segs) vars = (true, fs1)) :
    lookupEntry fs1 (renderTemplate pt vars) = some (renderSpec vars segs) ∧
    containsSub cursorPat (renderSpec vars segs) = false := by
  have hnb : (renderSpec vars segs).all (fun c => c != '{') = true :=
    renderSpec_noBrace vars segs hwf hv hd
  have hrf : renderTemplate (flatten segs) vars = renderSpec vars segs :=
    render_flatten vars segs hwf
  have hsc : stripCursor (renderTemplate (flatten segs) vars) =
      renderSpec vars segs := by
    rw [hrf]
    exact stripCursor_of_noBrace hnb
  rw [createEntitySingle] at hcr
  by_cases hex : fs.any (fun e => e.1 == renderTemplate pt vars) = true
  · rw [if_pos hex] at hcr
    simp at hcr
  · rw [if_neg hex] at hcr
    simp only [Prod.mk.injEq, true_and] at hcr
    refine ⟨?_, containsSub_cursor_of_noBrace hnb⟩
    rw [← hcr, hsc]
    exact lookupEntry_write_self _ _ _

theorem claim_C9_cursor_absent_witness :
    segsWF [Seg.lit ['a'],
      Seg.var ('c' :: 'u' :: 'r' :: 's' :: 'o' :: 'r' :: []) none, Seg.lit ['b']] = true ∧
    createEntitySingle [] ['f']
        (flatten [Seg.lit ['a'],
          Seg.var ('c' :: 'u' :: 'r' :: 's' :: 'o' :: 'r' :: []) none, Seg.lit ['b']])
        [(('t' :: 'i' :: 't' :: 'l' :: 'e' :: []), ['T'])] =
      (true, [(['f'], 'a' :: 'b' :: [])]) ∧
    containsSub cursorPat
      (renderSpec [(('t' :: 'i' :: 't' :: 'l' :: 'e' :: []), ['T'])]
        [Seg.lit ['a'],
          Seg.var ('c' :: 'u' :: 'r' :: 's' :: 'o' :: 'r' :: []) none, Seg.lit ['b']]) = false :=
  ⟨by decide, by decide,
    (claim_C9_cursor_absent
      [Seg.lit ['a'],
        Seg.var ('c' :: 'u' :: 'r' :: 's' :: 'o' :: 'r' :: []) none, Seg.lit ['b']]
      [(('t' :: 'i' :: 't' :: 'l' :: 'e' :: []), ['T'])]
      [] [(['f'], 'a' :: 'b' :: [])] ['f']
      (by decide) (by decide) (by decide) (by decide)).2⟩

/-! ## generateUniquePrefix (src/index.ts lines 69-104) -/

/-- The prefixes collected by the scan: `dir.substring(0, 2)` for every
directory name that contains an underscore (lines 74-92). -/
def dirPfxSet (dirs : List LC) : List LC :=
  dirs.filterMap (fun d => if d.contains '_' then some (d.take 2) else none)

/-- Indexing into the sampled alphabet abcdefghijklmnopqrstuvwxyz. -/
def letter (i : Fin 26) : Char := Char.ofNat (97 + i.val)

/-- One iteration's draw: two random lowercase letters. -/
def samplePair (p : Fin 26 × Fin 26) : LC := [letter p.1, letter p.2]

/-- The do-while sampling loop (lines 94-103).  The stream supply stands for
the successive draws of Math.random; the fuel argument bounds how many
iterations are examined — the loop in the code has no such bound, which is
what claim C5 is about. -/
def genLoop (pfxs : List LC) (supply : Nat → Fin 26 × Fin 26) :
    Nat → Nat → Option LC
  | 0, _ => none
  | fuel + 1, k =>
    if pfxs.contains (samplePair (supply k)) then genLoop pfxs supply fuel (k + 1)
    else some (samplePair (supply k))

/-- generateUniquePrefix: scan the projects root and the areas root, then
sample until the draw is outside the collected set (src/index.ts 69-104). -/
def generateUniquePrefix (projectDirs areaDirs : List LC)
    (supply : Nat → Fin 26 × Fin 26) (fuel : Nat) : Option LC :=
  genLoop (dirPfxSet projectDirs ++ dirPfxSet areaDirs) supply fuel 0

lemma contains_false_not_mem {l : List LC} {a : LC}
    (h : l.contains a = false) : a ∉ l := by
  intro hm
  have h2 : l.elem a = true := List.elem_iff.mpr hm
  rw [show l.contains a = l.elem a from rfl, h2] at h
  exact absurd h (by simp)

lemma genLoop_some {pfxs : List LC} {supply : Nat → Fin 26 × Fin 26} :
    ∀ {fuel k : Nat} {p : LC}, genLoop pfxs supply fuel k = some p →
      pfxs.contains p = false ∧ ∃ i, p = samplePair (supply i) := by
  intro fuel
  induction fuel with
  | zero => intro k p h; simp [genLoop] at h
  | succ n ih =>
    intro k p h
    rw [genLoop] at h
    by_cases hc : pfxs.contains (samplePair (supply k)) = true
    · rw [if_pos hc] at h
      exact ih h
    · rw [if_neg hc] at h
      simp only [Option.some.injEq] at h
      subst h
      exact ⟨eq_false_of_ne_true hc, k, rfl⟩

lemma dropWhile_ne_nil_of_contains {d : LC} (h : d.contains '_' = true) :
    d.dropWhile (fun c => c != '_') ≠ [] := by
  intro h0
  have hall : ∀ c ∈ d, c ≠ '_' := by
    intro c hc
    have hc2 : c ∈ d.takeWhile (fun c => c != '_') := by
      have := List.takeWhile_append_dropWhile (fun c => c != '_') d
      rw [h0, List.append_nil] at this
      rw [this]
      exact hc
    simpa using List.mem_takeWhile_imp hc2
  have hm : ('_' : Char) ∈ d := by
    have h2 : d.elem '_' = true := h
    exact List.elem_iff.mp h2
  exact hall '_' hm rfl

/-- Claim C4: whenever generateUniquePrefix returns a prefix, that prefix
differs from the prefix — the text before the first underscore — of every
folder name containing an underscore that exists in the projects root or in
the areas root at scan time. -/
theorem claim_C4_generated_fresh (projectDirs areaDirs : List LC)
    (supply : Nat → Fin 26 × Fin 26) (fuel : Nat) (p d : LC)
    (hgen : generateUniquePrefix projectDirs areaDirs supply fuel = some p)
    (hd : d ∈ projectDirs ++ areaDirs) (hu : d.contains '_' = true) :
    d.takeWhile (fun c => c != '_') ≠ p := by
  intro heq
  obtain ⟨hnc, i, hp⟩ := genLoop_some hgen
  have hlen : p.length = 2 := by rw [hp]; rfl
  rcases hdw : d.dropWhile (fun c => c != '_') with _ | ⟨u, rest⟩
  · exact dropWhile_ne_nil_of_contains hu hdw
  · have hd2 : d = p ++ u :: rest := by
      conv_lhs => rw [← List.takeWhile_append_dropWhile (fun c => c != '_') d]
      rw [heq, hdw]
    have htake : d.take 2 = p := by
      rw [hd2, ← hlen, List.take_left]
    have hmem : p ∈ dirPfxSet projectDirs ++ dirPfxSet areaDirs := by
      rcases List.mem_append.mp hd with hdm | hdm
      · refine List.mem_append.mpr (Or.inl ?_)
        rw [dirPfxSet, List.mem_filterMap]
        exact ⟨d, hdm, by rw [if_pos hu, htake]⟩
      · refine List.mem_append.mpr (Or.inr ?_)
        rw [dirPfxSet, List.mem_filterMap]
        exact ⟨d, hdm, by rw [if_pos hu, htake]⟩
    exact contains_false_not_mem hnc hmem

theorem claim_C4_generated_fresh_witness :
    generateUniquePrefix [('a' :: 'b' :: '_' :: 'x' :: [])] []
        (fun n => if n = 0 then ((0 : Fin 26), (1 : Fin 26))
          else ((2 : Fin 26), (3 : Fin 26))) 5 = some ('c' :: 'd' :: []) ∧
    ('a' :: 'b' :: '_' :: 'x' :: []).takeWhile (fun c => c != '_') ≠
      ('c' :: 'd' :: []) :=
  ⟨by decide,
    claim_C4_generated_fresh [('a' :: 'b' :: '_' :: 'x' :: [])] []
      (fun n => if n = 0 then ((0 : Fin 26), (1 : Fin 26))
        else ((2 : Fin 26), (3 : Fin 26))) 5 ('c' :: 'd' :: [])
      ('a' :: 'b' :: '_' :: 'x' :: []) (by decide) (by decide) (by decide)⟩

/-! ## Claim C5: termination of the sampling loop -/

/-- All 676 two-letter combinations, each occurring as an existing folder
name (with a trailing underscore so the scan collects it). -/
def satDirs : List LC :=
  (List.finRange 26).flatMap
    (fun i => (List.finRange 26).map (fun j => [letter i, letter j, '_']))

/-- A sample stream (every draw is the pair aa). -/
def constAA : Nat → Fin 26 × Fin 26 := fun _ => (0, 0)

/-- The sampling loop runs forever: no fuel makes it return. -/
def loopDiverges (pfxs : List LC) (supply : Nat → Fin 26 × Fin 26) : Prop :=
  ∀ fuel k, genLoop pfxs supply fuel k = none

/-- Claim C5, counterexample: on a fully saturated space — every one of the
676 two-letter combinations already occurs as an existing prefix —
generateUniquePrefix does not terminate: every sample lands in the collected
set, so the do-while loop of genLoop returns nothing for any amount of fuel.
The claim asserts termination even in this situation; the code loops
forever. -/
theorem claim_C5_counterexample :
    loopDiverges (dirPfxSet satDirs ++ dirPfxSet []) constAA := by
  have hmem : ∀ k : Nat, (dirPfxSet satDirs ++ dirPfxSet []).contains
      (samplePair (constAA k)) = true := by
    intro k
    show (dirPfxSet satDirs ++ dirPfxSet []).contains (samplePair (0, 0)) = true
    decide
  intro fuel
  induction fuel with
  | zero => intro k; rfl
  | succ n ih =>
    intro k
    rw [genLoop, if_pos (hmem k)]
    exact ih (k + 1)

/-- Claim C5 (amended): the sampling loop terminates exactly when the sample
stream eventually draws a prefix outside the collected set; in particular it
terminates whenever not every combination is taken and the sampler at some
point draws a free one.  On a fully saturated space it loops forever, which
the specification elsewhere records as an accepted limitation. -/
theorem claim_C5_terminates_with_free_draw (projectDirs areaDirs : List LC)
    (supply : Nat → Fin 26 × Fin 26) (n : Nat)
    (h : (dirPfxSet projectDirs ++ dirPfxSet areaDirs).contains
      (samplePair (supply n)) = false) :
    ∃ fuel p, generateUniquePrefix projectDirs areaDirs supply fuel = some p := by
  suffices hs : ∀ (m k : Nat),
      (dirPfxSet projectDirs ++ dirPfxSet areaDirs).contains
        (samplePair (supply (k + m))) = false →
      ∃ p, genLoop (dirPfxSet projectDirs ++ dirPfxSet areaDirs)
        supply (m + 1) k = some p by
    obtain ⟨p, hp⟩ := hs n 0 (by simpa using h)
    exact ⟨n + 1, p, hp⟩
  intro m
  induction m with
  | zero =>
    intro k hk
    rw [Nat.add_zero] at hk
    rw [genLoop, if_neg (by rw [hk]; simp)]
    exact ⟨_, rfl⟩
  | succ m2 ih =>
    intro k hk
    by_cases hc : (dirPfxSet projectDirs ++ dirPfxSet areaDirs).contains
        (samplePair (supply k)) = true
    · rw [genLoop, if_pos hc]
      exact ih (k + 1) (by rw [show k + 1 + m2 = k + (m2 + 1) by omega]; exact hk)
    · rw [genLoop, if_neg hc]
      exact ⟨_, rfl⟩

theorem claim_C5_terminates_with_free_draw_witness :
    (dirPfxSet [('a' :: 'b' :: '_' :: [])] ++ dirPfxSet []).contains
      (samplePair (constAA 0)) = false ∧
    ∃ fuel p, generateUniquePrefix [('a' :: 'b' :: '_' :: [])] [] constAA fuel
      = some p :=
  ⟨by decide,
    claim_C5_terminates_with_free_draw [('a' :: 'b' :: '_' :: [])] [] constAA 0
      (by decide)⟩

/-! ## Content rewriting used by mark (src/index.ts lines 438-446, 557-576)

The regex `\n\s*- status\/[^\n]+` matches a newline, then whitespace, then
the literal tag text, then the nonempty rest of the line.  Since the
whitespace run contains no hyphen, backtracking inside `\s*` never helps: a
match at a newline exists exactly when the maximal whitespace run after it is
followed by the tag text and at least one character other than a newline. -/

def tagLit : LC := '-' :: ' ' :: "status/".toList

/-- Whether the tag pattern matches right after a newline; rest is the text
following the newline. -/
def tagHit (rest : LC) : Bool :=
  tagLit.isPrefixOf (rest.dropWhile isJsWS) &&
  !(((rest.dropWhile isJsWS).drop 9).takeWhile (fun c => c != '\n')).isEmpty

/-- `content.replace(/\n\s*- status\/[^\n]+/, "")` — first match only. -/
def removeTag : LC → LC
  | [] => []
  | c :: rest =>
    if (c == '\n') && tagHit rest then
      ((rest.dropWhile isJsWS).drop 9).dropWhile (fun c => c != '\n')
    else c :: removeTag rest

/-- The replacement of the first match of the tag text followed by the
nonempty rest of the line (no leading newline required) with the tag text and
the new status — markPost, non-done statuses. -/
def replaceTag (st : LC) : LC → LC
  | [] => []
  | c :: rest =>
    if tagLit.isPrefixOf (c :: rest) &&
        !(((c :: rest).drop 9).takeWhile (fun c => c != '\n')).isEmpty then
      tagLit ++ st ++ ((c :: rest).drop 9).dropWhile (fun c => c != '\n')
    else c :: replaceTag st rest

/-- First `- status\/[^\n]+` match in the text: the text before the match and
the text after the matched span. -/
def findTag : LC → Option (LC × LC)
  | [] => none
  | c :: rest =>
    if tagLit.isPrefixOf (c :: rest) &&
        !(((c :: rest).drop 9).takeWhile (fun c => c != '\n')).isEmpty then
      some ([], ((c :: rest).drop 9).dropWhile (fun c => c != '\n'))
    else
      match findTag rest with
      | some (m, a) => some (c :: m, a)
      | none => none

def tagsKey : LC := "tags:".toList ++ ['\n']

/-- `content.replace(/tags:\n([\s\S]*?)- status\/[^\n]+/, "tags:\n$1-
status/" + st)` — markWork, non-done statuses; leftmost match, lazy
middle. -/
def replaceTagsBlock (st : LC) : LC → LC
  | [] => []
  | c :: rest =>
    if tagsKey.isPrefixOf (c :: rest) then
      match findTag ((c :: rest).drop 6) with
      | some (m, a) => tagsKey ++ m ++ tagLit ++ st ++ a
      | none => c :: replaceTagsBlock st rest
    else c :: replaceTagsBlock st rest

def splitLines (l : LC) : List LC := splitOnChar '\n' l

def joinLines : List LC → LC
  | [] => []
  | [l] => l
  | l :: ls => l ++ '\n' :: joinLines ls

/-- Whether `^status: .+$` matches the line. -/
def statusLinePred (l : LC) : Bool :=
  ("status: ".toList).isPrefixOf l && decide (8 < l.length)

def replaceFirstLine (p : LC → Bool) (newLine : LC) : List LC → List LC
  | [] => []
  | l :: ls => if p l then newLine :: ls else l :: replaceFirstLine p newLine ls

/-- `content.replace(/^status: .+$/m, "status: " + st)` — first matching
line only. -/
def replaceStatusLine (st : LC) (content : LC) : LC :=
  joinLines (replaceFirstLine statusLinePred ("status: ".toList ++ st)
    (splitLines content))

/-! ## The vault model for mark

A parent container's four status folders (directly under an area for posts,
under the parent's work directory for work items) are a FolderSet; a root
directory listing is an association list from folder name to FolderSet. -/

inductive WStatus
  | backlog
  | active
  | review
  | done
deriving DecidableEq

structure FolderSet where
  backlog : List Entry
  active : List Entry
  review : List Entry
  done : List Entry
deriving DecidableEq

def FolderSet.get (fs : FolderSet) : WStatus → List Entry
  | .backlog => fs.backlog
  | .active => fs.active
  | .review => fs.review
  | .done => fs.done

def FolderSet.set (fs : FolderSet) : WStatus → List Entry → FolderSet
  | .backlog, l => { fs with backlog := l }
  | .active, l => { fs with active := l }
  | .review, l => { fs with review := l }
  | .done, l => { fs with done := l }

/-- The fixed scan order of the status folders. -/
def statusList : List WStatus := [.backlog, .active, .review, .done]

def statusName : WStatus → LC
  | .backlog => "backlog".toList
  | .active => "active".toList
  | .review => "review".toList
  | .done => "done".toList

def statusCap : WStatus → LC
  | .backlog => "Backlog".toList
  | .active => "Active".toList
  | .review => "Review".toList
  | .done => "Done".toList

/-- Validation of the status argument against the four valid statuses. -/
def statusOfString (s : LC) : Option WStatus :=
  if s = "backlog".toList then some WStatus.backlog
  else if s = "active".toList then some WStatus.active
  else if s = "review".toList then some WStatus.review
  else if s = "done".toList then some WStatus.done
  else none

/-- First file whose name starts with the item code and an underscore,
scanning the four status folders in order. -/
def findItem (fs : FolderSet) (ipfx : LC) : Option (WStatus × Entry) :=
  statusList.findSome? (fun st =>
    ((fs.get st).find? (fun e => ipfx.isPrefixOf e.1)).map (fun e => (st, e)))

/-- `dirs.find(d => d.startsWith(pfx + "_"))`. -/
def findDir (dirs : List (LC × FolderSet)) (pfx : LC) : Option (LC × FolderSet) :=
  dirs.find? (fun d => (pfx ++ ['_']).isPrefixOf d.1)

def updateDir (dirs : List (LC × FolderSet)) (name : LC) (fs : FolderSet) :
    List (LC × FolderSet) :=
  dirs.map (fun d => if d.1 == name then (name, fs) else d)

/-- Write the transformed content to the target folder, then unlink the
source file; both steps act on the same folder when the target status equals
the source status, so the write happens first and the unlink second, exactly
as in the code. -/
def moveItem (fs : FolderSet) (src : WStatus) (name : LC) (target : WStatus)
    (tName tContent : LC) : FolderSet :=
  let fs1 := fs.set target (writeEntry (fs.get target) tName tContent)
  fs1.set src (removeEntry (fs1.get src) name)

/-- Content rewriting of markWork (lines 557-576): the status field line is
rewritten first, then the tag line is removed (done) or rewritten inside the
tags block (other statuses). -/
def workTransform (target : WStatus) (ct : LC) : LC :=
  let c1 := replaceStatusLine (statusCap target) ct
  match target with
  | .done => removeTag c1
  | st => replaceTagsBlock (statusName st) c1

/-- Content rewriting of markPost (lines 438-446). -/
def postTransform (target : WStatus) (ct : LC) : LC :=
  match target with
  | .done => removeTag ct
  | st => replaceTag (statusName st) ct

/-- markPost (src/index.ts lines 372-459): validate the status, find the
area by prefix in the areas root, find the post across the four status
folders, compute the target name (item code stripped when done), transform
the content, then write the target file and unlink the source file. -/
def markPost (areas : List (LC × FolderSet)) (areaPfx itemPfx statusArg : LC) :
    Option (List (LC × FolderSet)) :=
  match statusOfString (statusArg.map Char.toLower) with
  | none => none
  | some target =>
    match findDir areas areaPfx with
    | none => none
    | some (dn, fs) =>
      match findItem fs (itemPfx ++ ['_']) with
      | none => none
      | some (src, e) =>
        let tName := if target = WStatus.done
          then replaceFirst (itemPfx ++ ['_']) [] e.1 else e.1
        some (updateDir areas dn
          (moveItem fs src e.1 target tName (postTransform target e.2)))

/-- The parent search of markWork: the projects root first, then — when no
project name matches or the matching project holds no such item — the areas
root (lines 478-528). -/
def locateWork (projects areas : List (LC × FolderSet)) (pf ipfx : LC) :
    Option (Bool × LC × FolderSet × WStatus × Entry) :=
  let inAreas :=
    match findDir areas pf with
    | some (dn, fs) => (findItem fs ipfx).map (fun r => (false, dn, fs, r.1, r.2))
    | none => none
  match findDir projects pf with
  | some (dn, fs) =>
    match findItem fs ipfx with
    | some (st, e) => some (true, dn, fs, st, e)
    | none => inAreas
  | none => inAreas

/-- markWork (src/index.ts lines 461-589); returns the new projects and
areas listings. -/
def markWork (projects areas : List (LC × FolderSet)) (pf itemPfx statusArg : LC) :
    Option (List (LC × FolderSet) × List (LC × FolderSet)) :=
  match statusOfString (statusArg.map Char.toLower) with
  | none => none
  | some target =>
    match locateWork projects areas pf (itemPfx ++ ['_']) with
    | none => none
    | some (isProj, dn, fs, src, e) =>
      let tName := if target = WStatus.done
        then replaceFirst (itemPfx ++ ['_']) [] e.1 else e.1
      let fs2 := moveItem fs src e.1 target tName (workTransform target e.2)
      if isProj then some (updateDir projects dn fs2, areas)
      else some (projects, updateDir areas dn fs2)

/-! ## Claim C1: marking to the current status folder -/

/-- The demonstration vault for claim C1: one area, with one post sitting in
its backlog folder. -/
def c1Content : LC := ('t' :: '\n' :: ' ' :: ' ' :: []) ++ tagLit ++ "backlog\nbody".toList

def c1Areas : List (LC × FolderSet) :=
  [("pb_personal_blog".toList,
    { backlog := [("abc_x.md".toList, c1Content)],
      active := [], review := [], done := [] })]

/-- Claim C1 (code bug): marking a post to the status folder it already
occupies deletes it.  The target path equals the source path, so the
write-then-unlink sequence of markPost (write target content, then unlink
source) removes the file it has just written: after
mark post --prefix pb --item abc --status backlog on a post sitting in
backlog, all four status folders of the area are empty — the post exists
nowhere, while the claim requires a file with its name to exist in the target
status folder. -/
theorem claim_C1_mark_same_status_deletes :
    markPost c1Areas ("pb".toList) ("abc".toList) ("backlog".toList) =
      some [("pb_personal_blog".toList,
        { backlog := [], active := [], review := [], done := [] })] := by
  rfl

/-! ## Support lemmas for claim C6 -/

lemma dropWhile_append_all {p : Char → Bool} {l1 l2 : LC}
    (h : ∀ c ∈ l1, p c = true) : (l1 ++ l2).dropWhile p = l2.dropWhile p := by
  induction l1 with
  | nil => rfl
  | cons c t ih =>
    rw [List.cons_append, List.dropWhile_cons, if_pos (h c (by simp))]
    exact ih (fun x hx => h x (by simp [hx]))

lemma takeWhile_all {p : Char → Bool} {l : LC} (h : ∀ c ∈ l, p c = true) :
    l.takeWhile p = l := by
  induction l with
  | nil => rfl
  | cons c t ih =>
    rw [List.takeWhile_cons, if_pos (h c (by simp)),
      ih (fun x hx => h x (by simp [hx]))]

lemma dropWhile_all {p : Char → Bool} {l : LC} (h : ∀ c ∈ l, p c = true) :
    l.dropWhile p = [] := by
  induction l with
  | nil => rfl
  | cons c t ih =>
    rw [List.dropWhile_cons, if_pos (h c (by simp))]
    exact ih (fun x hx => h x (by simp [hx]))

lemma dropWhile_isJsWS_tag (X : LC) :
    (tagLit ++ X).dropWhile isJsWS = tagLit ++ X := by
  rw [show tagLit ++ X = '-' :: (' ' :: ("status/".toList ++ X)) from rfl]
  rw [List.dropWhile_cons, if_neg (by decide)]

lemma drop_nine_tag (X : LC) : (tagLit ++ X).drop 9 = X := by
  rw [show (9 : Nat) = tagLit.length from rfl, List.drop_left]

lemma takeWhile_old {old c2 : LC} (holdn : ∀ c ∈ old, c ≠ '\n')
    (hc2 : c2 = [] ∨ c2.head? = some '\n') :
    (old ++ c2).takeWhile (fun c => c != '\n') = old ∧
    (old ++ c2).dropWhile (fun c => c != '\n') = c2 := by
  have hall : ∀ c ∈ old, (fun c => c != '\n') c = true := by
    intro c hc
    simpa using holdn c hc
  rcases hc2 with hc2 | hc2
  · subst hc2
    rw [List.append_nil]
    exact ⟨takeWhile_all hall, dropWhile_all hall⟩
  · match c2, hc2 with
    | c :: rest, hc2 =>
      have hcnl : c = '\n' := by simpa using hc2
      subst hcnl
      exact takeWhile_append_stop old '\n' rest hall (by simp)

lemma tagHit_at_match {ws old c2 : LC}
    (hws : ∀ c ∈ ws, isJsWS c = true)
    (hold : old ≠ []) (holdn : ∀ c ∈ old, c ≠ '\n')
    (hc2 : c2 = [] ∨ c2.head? = some '\n') :
    tagHit (ws ++ (tagLit ++ (old ++ c2))) = true ∧
    (((ws ++ (tagLit ++ (old ++ c2))).dropWhile isJsWS).drop 9).dropWhile
      (fun c => c != '\n') = c2 := by
  have hdw : (ws ++ (tagLit ++ (old ++ c2))).dropWhile isJsWS =
      tagLit ++ (old ++ c2) := by
    rw [dropWhile_append_all hws, dropWhile_isJsWS_tag]
  obtain ⟨htk, hdr⟩ := takeWhile_old holdn hc2
  constructor
  · rw [tagHit, hdw, drop_nine_tag]
    have hpre : tagLit.isPrefixOf (tagLit ++ (old ++ c2)) = true :=
      List.isPrefixOf_iff_prefix.mpr (List.prefix_append _ _)
    rw [hpre, htk]
    simpa using hold
  · rw [hdw, drop_nine_tag, hdr]

lemma removeTag_decomp (p ws old c2 : LC)
    (hws : ∀ c ∈ ws, isJsWS c = true)
    (hold : old ≠ []) (holdn : ∀ c ∈ old, c ≠ '\n')
    (hc2 : c2 = [] ∨ c2.head? = some '\n')
    (hp : ∀ q r, p = q ++ '\n' :: r →
      tagHit (r ++ '\n' :: (ws ++ (tagLit ++ (old ++ c2)))) = false) :
    removeTag (p ++ '\n' :: (ws ++ (tagLit ++ (old ++ c2)))) = p ++ c2 := by
  obtain ⟨hhit, hrem⟩ := tagHit_at_match hws hold holdn hc2
  induction p with
  | nil =>
    rw [List.nil_append, removeTag, if_pos (by rw [hhit]; simp), hrem,
      List.nil_append]
  | cons a p2 ih =>
    by_cases ha : a = '\n'
    · subst ha
      have hmiss := hp [] p2 rfl
      rw [List.cons_append, removeTag, if_neg (by rw [hmiss]; simp)]
      rw [ih (fun q r hqr => hp ('\n' :: q) r (by rw [hqr]; rfl))]
      rfl
    · rw [List.cons_append, removeTag,
        if_neg (by rw [show (a == '\n') = false from beq_eq_false_iff_ne.mpr ha]; simp)]
      rw [ih (fun q r hqr => hp (a :: q) r (by rw [hqr]; rfl))]
      rfl

lemma find?_eq_head_filter {α : Type} (p : α → Bool) (l : List α) :
    l.find? p = (l.filter p).head? := by
  induction l with
  | nil => rfl
  | cons a t ih =>
    by_cases hp : p a = true
    · rw [List.find?_cons_of_pos _ hp, List.filter_cons, if_pos hp]
      rfl
    · rw [List.find?_cons_of_neg _ hp, List.filter_cons, if_neg hp, ih]

lemma findItem_of_unique {fs : FolderSet} {ipfx nm ct : LC} {src : WStatus}
    (h1 : (fs.get src).filter (fun e => ipfx.isPrefixOf e.1) = [(nm, ct)])
    (h2 : ∀ s ∈ statusList, s ≠ src →
      (fs.get s).filter (fun e => ipfx.isPrefixOf e.1) = []) :
    findItem fs ipfx = some (src, (nm, ct)) := by
  have hfind : ∀ s : WStatus, (fs.get s).find? (fun e => ipfx.isPrefixOf e.1) =
      if s = src then some (nm, ct) else none := by
    intro s
    by_cases hs : s = src
    · subst hs
      rw [if_pos rfl, find?_eq_head_filter, h1]
      rfl
    · rw [if_neg hs, find?_eq_head_filter,
        h2 s (by cases s <;> simp [statusList]) hs]
      rfl
  rw [findItem]
  cases src <;>
    simp [statusList, List.findSome?_cons, hfind]

lemma FolderSet.get_set_same (fs : FolderSet) (s : WStatus) (l : List Entry) :
    (fs.set s l).get s = l := by
  cases s <;> rfl

lemma FolderSet.get_set_ne (fs : FolderSet) {s t : WStatus} (l : List Entry)
    (h : s ≠ t) : (fs.set s l).get t = fs.get t := by
  cases s <;> cases t <;> first | rfl | exact absurd rfl h

lemma findDir_update {dirs : List (LC × FolderSet)} {pf dn : LC}
    {fs fs2 : FolderSet} (h : findDir dirs pf = some (dn, fs)) :
    findDir (updateDir dirs dn fs2) pf = some (dn, fs2) := by
  induction dirs with
  | nil => simp [findDir, List.find?] at h
  | cons d t ih =>
    rw [findDir] at h
    rw [findDir, updateDir, List.map_cons]
    by_cases hm : ((pf ++ ['_']).isPrefixOf d.1) = true
    · rw [List.find?_cons_of_pos
        (p := fun x : LC × FolderSet => (pf ++ ['_']).isPrefixOf x.1) _ hm] at h
      simp only [Option.some.injEq] at h
      have hd1 : d.1 = dn := by rw [h]
      rw [if_pos (by simp [hd1])]
      rw [List.find?_cons_of_pos
        (p := fun x : LC × FolderSet => (pf ++ ['_']).isPrefixOf x.1) _
        (by show ((pf ++ ['_']).isPrefixOf dn) = true; rw [← hd1]; exact hm)]
    · rw [List.find?_cons_of_neg
        (p := fun x : LC × FolderSet => (pf ++ ['_']).isPrefixOf x.1) _ hm] at h
      by_cases hd : d.1 = dn
      · exfalso
        have hpred : ((pf ++ ['_']).isPrefixOf dn) = true := by
          have h2 := List.find?_some
            (p := fun x : LC × FolderSet => (pf ++ ['_']).isPrefixOf x.1) h
          simpa using h2
        rw [hd] at hm
        exact hm hpred
      · rw [if_neg (by simp [hd])]
        rw [List.find?_cons_of_neg
          (p := fun x : LC × FolderSet => (pf ++ ['_']).isPrefixOf x.1) _ hm]
        exact ih h

lemma replaceFirst_of_isPrefix {pat nm : LC} (hne : nm ≠ [])
    (hp : pat.isPrefixOf nm = true) :
    replaceFirst pat [] nm = nm.drop pat.length := by
  match nm with
  | [] => exact absurd rfl hne
  | c :: r =>
    rw [replaceFirst, if_pos hp]
    simp

/-- No newline of the scanned text starts a tag match when followed by the
continuation cont: the executable form of the first-match condition. -/
def noEarlierTagHit (cont : LC) : LC → Bool
  | [] => true
  | c :: rest =>
    (!(c == '\n') || !(tagHit (rest ++ cont))) && noEarlierTagHit cont rest

lemma noEarlierTagHit_spec {cont pre : LC}
    (h : noEarlierTagHit cont pre = true) :
    ∀ q r, pre = q ++ '\n' :: r → tagHit (r ++ cont) = false := by
  induction pre with
  | nil =>
    intro q r hqr
    exact absurd hqr (by simp)
  | cons a p2 ih =>
    intro q r hqr
    rw [noEarlierTagHit] at h
    simp only [Bool.and_eq_true] at h
    match q, hqr with
    | [], hqr =>
      obtain ⟨ha, hp2⟩ : a = '\n' ∧ p2 = r := by simpa using hqr
      subst ha
      subst hp2
      have h1 := h.1
      simpa using h1
    | b :: q2, hqr =>
      obtain ⟨hb, hrest⟩ : a = b ∧ p2 = q2 ++ '\n' :: r := by simpa using hqr
      exact ih h.2 q2 r hrest

/-- Claim C6: when the parent container — matched in the projects root first,
then the areas root, by the two-letter prefix — holds exactly one file
starting with the item code and an underscore across its four work status
folders, mark work with status done relocates that file to the parent's done
folder with the leading item-code segment stripped from its name, removes the
status tag line from its content (after the status field line is rewritten to
Done), and the original file no longer exists.  The shape hypotheses present
the content after the status-line rewrite as the text before the tag line,
the newline and whitespace introducing the tag, the tag with the old status
and the rest of its line, and the remaining text; hpre states that the tag
pattern matches at no earlier newline, so the line removed is this one. -/
theorem claim_C6_mark_work_done
    (projects areas : List (LC × FolderSet)) (pf ip dn nm ct pre ws old c2 : LC)
    (fs : FolderSet) (src : WStatus) (isProj : Bool)
    (hdir : (isProj = true ∧ findDir projects pf = some (dn, fs)) ∨
      (isProj = false ∧
        (∀ dn0 fs0, findDir projects pf = some (dn0, fs0) →
          findItem fs0 (ip ++ ['_']) = none) ∧
        findDir areas pf = some (dn, fs)))
    (hone : (fs.get src).filter (fun e => (ip ++ ['_']).isPrefixOf e.1) = [(nm, ct)])
    (hrest : ∀ s ∈ statusList, s ≠ src →
      (fs.get s).filter (fun e => (ip ++ ['_']).isPrefixOf e.1) = [])
    (hshape : replaceStatusLine ("Done".toList) ct =
      pre ++ '\n' :: (ws ++ (tagLit ++ (old ++ c2))))
    (hws : ∀ c ∈ ws, isJsWS c = true)
    (hold : old ≠ []) (holdn : ∀ c ∈ old, c ≠ '\n')
    (hc2 : c2 = [] ∨ c2.head? = some '\n')
    (hpre : noEarlierTagHit ('\n' :: (ws ++ (tagLit ++ (old ++ c2)))) pre = true) :
    ∃ projects2 areas2 fs2,
      markWork projects areas pf ip ("done".toList) = some (projects2, areas2) ∧
      (findDir projects2 pf = some (dn, fs2) ∨ findDir areas2 pf = some (dn, fs2)) ∧
      lookupEntry (fs2.get WStatus.done) (nm.drop (ip.length + 1)) =
        some (pre ++ c2) ∧
      lookupEntry (fs2.get src) nm = none := by
  have hitem : findItem fs (ip ++ ['_']) = some (src, (nm, ct)) :=
    findItem_of_unique hone hrest
  have hss : statusOfString (("done".toList).map Char.toLower) =
      some WStatus.done := by decide
  have hmem : (nm, ct) ∈ (fs.get src).filter
      (fun e => (ip ++ ['_']).isPrefixOf e.1) := by
    rw [hone]
    exact List.mem_singleton.mpr rfl
  have hprefix : ((ip ++ ['_']).isPrefixOf nm) = true := by
    have h2 := (List.mem_filter.mp hmem).2
    simpa using h2
  obtain ⟨tail, htail⟩ : ∃ tl, (ip ++ ['_']) ++ tl = nm :=
    List.isPrefixOf_iff_prefix.mp hprefix
  have hdrop : nm.drop (ip.length + 1) = tail := by
    rw [← htail, show ip.length + 1 = (ip ++ ['_']).length by simp, List.drop_left]
  have hnmne : nm ≠ [] := by
    rw [← htail]
    simp
  have hstrip : replaceFirst (ip ++ ['_']) [] nm = nm.drop (ip.length + 1) := by
    rw [replaceFirst_of_isPrefix hnmne hprefix]
    simp
  have htne : nm.drop (ip.length + 1) ≠ nm := by
    rw [hdrop]
    intro he
    have hlen : tail.length = nm.length := by rw [he]
    rw [← htail] at hlen
    simp only [List.length_append, List.length_cons, List.length_nil] at hlen
    omega
  have htct : workTransform WStatus.done ct = pre ++ c2 := by
    have h0 : workTransform WStatus.done ct =
        removeTag (replaceStatusLine ("Done".toList) ct) := rfl
    rw [h0, hshape]
    exact removeTag_decomp pre ws old c2 hws hold holdn hc2 (noEarlierTagHit_spec hpre)
  have hdone : lookupEntry
      ((moveItem fs src nm WStatus.done (nm.drop (ip.length + 1))
        (pre ++ c2)).get WStatus.done) (nm.drop (ip.length + 1)) =
      some (pre ++ c2) := by
    rw [moveItem]
    by_cases hsd : src = WStatus.done
    · subst hsd
      rw [FolderSet.get_set_same, FolderSet.get_set_same,
        lookupEntry_remove_ne _ htne]
      exact lookupEntry_write_self _ _ _
    · rw [FolderSet.get_set_ne _ _ hsd, FolderSet.get_set_same]
      exact lookupEntry_write_self _ _ _
  have hsrcnone : lookupEntry
      ((moveItem fs src nm WStatus.done (nm.drop (ip.length + 1))
        (pre ++ c2)).get src) nm = none := by
    rw [moveItem, FolderSet.get_set_same]
    exact lookupEntry_remove_self _ _
  rcases hdir with ⟨hb, hf⟩ | ⟨hb, hnone, hf⟩
  · subst hb
    have hloc : locateWork projects areas pf (ip ++ ['_']) =
        some (true, dn, fs, src, (nm, ct)) := by
      simp only [locateWork, hf, hitem]
    refine ⟨updateDir projects dn
        (moveItem fs src nm WStatus.done (nm.drop (ip.length + 1)) (pre ++ c2)),
      areas, _, ?_, Or.inl (findDir_update hf), hdone, hsrcnone⟩
    simp only [markWork, hss, hloc, if_pos, hstrip, htct]
  · subst hb
    have hloc : locateWork projects areas pf (ip ++ ['_']) =
        some (false, dn, fs, src, (nm, ct)) := by
      rcases hfp : findDir projects pf with _ | pq
      · simp only [locateWork, hfp, hf, hitem]
        rfl
      · obtain ⟨dn0, fs0⟩ := pq
        have hni := hnone dn0 fs0 hfp
        simp only [locateWork, hfp, hni, hf, hitem]
        rfl
    refine ⟨projects, updateDir areas dn
        (moveItem fs src nm WStatus.done (nm.drop (ip.length + 1)) (pre ++ c2)),
      _, ?_, Or.inr (findDir_update hf), hdone, hsrcnone⟩
    simp only [markWork, hss, hloc, if_pos, hstrip, htct]
    rfl

/-- Work item content for the claim C6 witness. -/
def c6Ct : LC :=
  "---\ntitle: t\nstatus: Active\ntags:\n  - status/active\n---\nbody".toList

def c6FS : FolderSet :=
  { backlog := [], active := [("xy_task.md".toList, c6Ct)], review := [], done := [] }

def c6Pre : LC := "---\ntitle: t\nstatus: Done\ntags:".toList

def c6C2 : LC := "\n---\nbody".toList

theorem claim_C6_mark_work_done_witness :
    (c6FS.get WStatus.active).filter
      (fun e => ("xy".toList ++ ['_']).isPrefixOf e.1) =
        [("xy_task.md".toList, c6Ct)] ∧
    replaceStatusLine ("Done".toList) c6Ct =
      c6Pre ++ '\n' :: ("  ".toList ++ (tagLit ++ ("active".toList ++ c6C2))) ∧
    (∃ projects2 areas2 fs2,
      markWork [("ab_proj".toList, c6FS)] [] ("ab".toList) ("xy".toList)
        ("done".toList) = some (projects2, areas2) ∧
      (findDir projects2 ("ab".toList) = some ("ab_proj".toList, fs2) ∨
        findDir areas2 ("ab".toList) = some ("ab_proj".toList, fs2)) ∧
      lookupEntry (fs2.get WStatus.done)
        (("xy_task.md".toList).drop (("xy".toList).length + 1)) =
          some (c6Pre ++ c6C2) ∧
      lookupEntry (fs2.get WStatus.active) ("xy_task.md".toList) = none) :=
  ⟨by decide, by decide,
    claim_C6_mark_work_done [("ab_proj".toList, c6FS)] [] ("ab".toList)
      ("xy".toList) ("ab_proj".toList) ("xy_task.md".toList) c6Ct c6Pre
      ("  ".toList) ("active".toList) c6C2 c6FS WStatus.active true
      (Or.inl ⟨rfl, by decide⟩) (by decide) (by decide) (by decide) (by decide)
      (by decide) (by decide) (by decide) (by decide)⟩

end Obsd
